import Mathlib

/-!
Shallow embedding of the Huffman coding repository (HuffEncrypt.go and its
companion decryption program). Characters (Go runes) are `Char`, the Go
`string` values are `List Char`, frequencies are `Nat`, and a bit-string is a
`List Char` over the characters '0' and '1' (the programs store bits as text).
Go map values are modelled as association lists carrying the (nondeterministic)
iteration order explicitly; fallible or panicking code returns `Option`/`Except`.
-/

namespace HuffmanCoding

/-- Models the Go `Node` struct. `leaf c f` is a node with `Char = c`,
`Freq = f`, `Left = Right = nil`, `IsParent = false`; `parent f l r` is a node
with `Freq = f`, children `l` and `r`, `IsParent = true`. These are exactly the
two shapes the programs ever build. -/
inductive Node where
  | leaf (char : Char) (freq : Nat)
  | parent (freq : Nat) (left : Node) (right : Node)
deriving DecidableEq

/-- The `Freq` field of a node. -/
def Node.freq : Node → Nat
  | .leaf _ f => f
  | .parent f _ _ => f

/-- The `IsParent` field of a node. -/
def Node.isParent : Node → Bool
  | .leaf _ _ => false
  | .parent _ _ _ => true

/-- Comparison underlying `Nodes.Less` (`n[i].Freq < n[j].Freq`), in its
non-strict form: sorting ascending by `Freq` with a stable sort orders equal
frequencies by their position in the working collection. -/
def nodeLE (a b : Node) : Prop := a.freq ≤ b.freq

instance : DecidableRel nodeLE := fun a b => Nat.decLe a.freq b.freq

instance : IsTotal Node nodeLE := ⟨fun a b => Nat.le_total a.freq b.freq⟩

instance : IsTrans Node nodeLE := ⟨fun _ _ _ h h' => Nat.le_trans h h'⟩

/-- Models `sort.Sort(nodes)` on the `Nodes` slice: an ascending sort by the
`Freq` field, taken stable (equal-weight nodes keep their relative order in the
working collection), which is the tie-break order the specification fixes for
the reference behaviour. -/
def sortNodes (nodes : List Node) : List Node := List.insertionSort nodeLE nodes

/-- The merge loop of `BuildHuffmanTree`: while more than one node remains,
take `nodes[0]` and `nodes[1]` of the sorted collection, merge them into a
parent (first selected becomes `Left`), append the parent at the end
(`append(nodes[2:], parent)`) and re-sort. `none` models the index-out-of-range
panic of `return nodes[0]` on an empty collection. -/
def buildLoop : List Node → Option Node
  | [] => none
  | [n] => some n
  | a :: b :: rest =>
    buildLoop (sortNodes (rest ++ [Node.parent (a.freq + b.freq) a b]))
termination_by l => l.length
decreasing_by simp [sortNodes]

/-- Models `BuildHuffmanTree(frequencies map[rune]int)`. The argument list is
the sequence of `(char, freq)` pairs in the order Go's (unspecified) map
iteration delivers them; the function then sorts the fresh leaves and runs the
merge loop. -/
def BuildHuffmanTree (frequencies : List (Char × Nat)) : Option Node :=
  buildLoop (sortNodes (frequencies.map fun p => Node.leaf p.1 p.2))

/-- Models `BuildHuffmanCodes(root, code, codes)`: a depth-first traversal that
records `codes[root.Char] = code` at each non-parent node, recursing left with
`code + "0"` and right with `code + "1"`. The returned association list holds
the map writes in traversal order. -/
def BuildHuffmanCodes : Node → List Char → List (Char × List Char)
  | .leaf c _, code => [(c, code)]
  | .parent _ l r, code =>
    BuildHuffmanCodes l (code ++ ['0']) ++ BuildHuffmanCodes r (code ++ ['1'])

/-- Models the encoding loop of `EncryptFile` (the file I/O around it is the
external byte source/sink): for each rune of the content, look its code up in
`codes`; if absent, return the error naming that character (the Go function
returns before anything is written to the sink), otherwise append the code.
`Except.ok` carries the full encrypted content that is then written. -/
def EncryptFile (codes : List (Char × List Char)) (content : List Char) :
    Except Char (List Char) :=
  match content with
  | [] => .ok []
  | c :: rest =>
    match codes.lookup c with
    | none => .error c
    | some code => (EncryptFile codes rest).map fun e => code ++ e

/-- Models the bit-walk loop of `DecryptFile`: for each rune of the input, move
the cursor to `Left` on '0' and to `Right` on any other rune, then, if the new
node has two nil children, emit its character and reset the cursor to the root.
Moving from a leaf sets the cursor to `nil`, and the following
`currentNode.Left` field access is a nil-pointer dereference: that panic is
modelled by `none`. The result pairs the decrypted content with the final
cursor. -/
def decryptLoop (root : Node) : List Char → Node → Option (List Char × Node)
  | [], cur => some ([], cur)
  | bit :: rest, cur =>
    match cur with
    | .leaf _ _ => none
    | .parent _ l r =>
      match (if bit == '0' then l else r) with
      | .leaf c _ => (decryptLoop root rest root).map fun p => (c :: p.1, p.2)
      | .parent f a b => decryptLoop root rest (.parent f a b)

/-- Models `DecryptFile` (minus the external byte source/sink): the content
written to the output file, or `none` for the nil-pointer panic. -/
def DecryptFile (root : Node) (bits : List Char) : Option (List Char) :=
  (decryptLoop root bits root).map Prod.fst

/-- One `frequencies[char]++` step on the association-list model of the Go
map (first occurrence appends a fresh entry with count 1). -/
def bumpFreq : List (Char × Nat) → Char → List (Char × Nat)
  | [], c => [(c, 1)]
  | (d, n) :: t, c => if c = d then (d, n + 1) :: t else (d, n) :: bumpFreq t c

/-- Models the frequency-counting loop of `main`: one pass over the rune
stream, incrementing the per-character count. Entries are kept in first
occurrence order; Go iterates the map in an unspecified order, which the
theorems quantify over as a permutation of this list. -/
def countFrequencies (content : List Char) : List (Char × Nat) :=
  content.foldl bumpFreq []

/-- Character-frequency pairs at the leaves, left to right. -/
def leafPairs : Node → List (Char × Nat)
  | .leaf c f => [(c, f)]
  | .parent _ l r => leafPairs l ++ leafPairs r

/-- All leaves of a working collection of nodes. -/
def flatLeaves (ns : List Node) : List (Char × Nat) := (ns.map leafPairs).flatten

/-- Root-to-leaf paths of a tree: each leaf's character paired with the
bit-string of the path reaching it ('0' = left, '1' = right). -/
def codePaths : Node → List (Char × List Char)
  | .leaf c _ => [(c, [])]
  | .parent _ l r =>
    (codePaths l).map (fun p => (p.1, '0' :: p.2)) ++
      (codePaths r).map (fun p => (p.1, '1' :: p.2))

/-- Checks that every internal node's weight is the sum of its two children's
weights. -/
def consistent : Node → Bool
  | .leaf _ _ => true
  | .parent f l r => (f == l.freq + r.freq) && consistent l && consistent r

/-- Number of leaf nodes. -/
def numLeaves : Node → Nat
  | .leaf _ _ => 1
  | .parent _ l r => numLeaves l + numLeaves r

/-- Number of internal (merge) nodes. -/
def numInternal : Node → Nat
  | .leaf _ _ => 0
  | .parent _ l r => numInternal l + numInternal r + 1

end HuffmanCoding

namespace HuffmanCoding

open List

theorem sortNodes_perm (ns : List Node) : sortNodes ns ~ ns :=
  List.perm_insertionSort nodeLE ns

theorem length_sortNodes (ns : List Node) : (sortNodes ns).length = ns.length :=
  (sortNodes_perm ns).length_eq

theorem sortNodes_sorted (ns : List Node) : List.Sorted nodeLE (sortNodes ns) :=
  List.sorted_insertionSort nodeLE ns

theorem mem_sortNodes {n : Node} {ns : List Node} : n ∈ sortNodes ns ↔ n ∈ ns :=
  (sortNodes_perm ns).mem_iff

/-- Stability of the sort model: for each weight `w`, the nodes of weight `w`
appear in the sorted collection in exactly the order the working collection
held them. -/
theorem filter_sortNodes (w : Nat) (ns : List Node) :
    (sortNodes ns).filter (fun n => n.freq == w) = ns.filter (fun n => n.freq == w) := by
  have hpw : (ns.filter (fun n => n.freq == w)).Pairwise nodeLE := by
    apply List.pairwise_of_forall_mem_list
    intro a ha b hb
    have ha' := (List.mem_filter.mp ha).2
    have hb' := (List.mem_filter.mp hb).2
    simp only [beq_iff_eq] at ha' hb'
    show a.freq ≤ b.freq
    rw [ha', hb']
  have hsub : ns.filter (fun n => n.freq == w) <+ sortNodes ns :=
    List.sublist_insertionSort hpw (List.filter_sublist ns)
  have h2 : ns.filter (fun n => n.freq == w) <+
      (sortNodes ns).filter (fun n => n.freq == w) := by
    have := hsub.filter (fun n => n.freq == w)
    simpa [List.filter_filter] using this
  have hlen : ((sortNodes ns).filter (fun n => n.freq == w)).length =
      (ns.filter (fun n => n.freq == w)).length :=
    ((sortNodes_perm ns).filter _).length_eq
  exact (h2.eq_of_length hlen.symm).symm

theorem buildLoop_isSome (ns : List Node) (h : ns ≠ []) :
    ∃ root, buildLoop ns = some root := by
  induction ns using buildLoop.induct with
  | case1 => exact absurd rfl h
  | case2 n => exact ⟨n, by simp [buildLoop]⟩
  | case3 a b rest ih =>
    have hne : sortNodes (rest ++ [Node.parent (a.freq + b.freq) a b]) ≠ [] := by
      have : 0 < (sortNodes (rest ++ [Node.parent (a.freq + b.freq) a b])).length := by
        rw [length_sortNodes]
        simp
      exact List.length_pos.mp this
    obtain ⟨root, hroot⟩ := ih hne
    exact ⟨root, by rw [buildLoop]; exact hroot⟩

theorem flatLeaves_sortNodes (ns : List Node) : flatLeaves (sortNodes ns) ~ flatLeaves ns :=
  ((sortNodes_perm ns).map leafPairs).flatten

theorem flatLeaves_append (ns ms : List Node) :
    flatLeaves (ns ++ ms) = flatLeaves ns ++ flatLeaves ms := by
  simp [flatLeaves]

theorem buildLoop_leafPairs (ns : List Node) (root : Node) (h : buildLoop ns = some root) :
    leafPairs root ~ flatLeaves ns := by
  induction ns using buildLoop.induct generalizing root with
  | case1 => simp [buildLoop] at h
  | case2 n =>
    simp [buildLoop] at h
    subst h
    simp [flatLeaves]
  | case3 a b rest ih =>
    rw [buildLoop] at h
    calc leafPairs root
        ~ flatLeaves (sortNodes (rest ++ [Node.parent (a.freq + b.freq) a b])) := ih root h
      _ ~ flatLeaves (rest ++ [Node.parent (a.freq + b.freq) a b]) := flatLeaves_sortNodes _
      _ = flatLeaves rest ++ (leafPairs a ++ leafPairs b) := by
          simp [flatLeaves_append, flatLeaves, leafPairs]
      _ ~ (leafPairs a ++ leafPairs b) ++ flatLeaves rest := List.perm_append_comm
      _ = flatLeaves (a :: b :: rest) := by simp [flatLeaves]

theorem flatLeaves_leaves (freqs : List (Char × Nat)) :
    flatLeaves (freqs.map fun p => Node.leaf p.1 p.2) = freqs := by
  induction freqs with
  | nil => rfl
  | cons p t ih => simp [flatLeaves, leafPairs] at ih ⊢; exact ih

theorem BuildHuffmanTree_leafPairs {freqs : List (Char × Nat)} {root : Node}
    (h : BuildHuffmanTree freqs = some root) : leafPairs root ~ freqs := by
  have h1 := buildLoop_leafPairs _ _ h
  have h2 := flatLeaves_sortNodes (freqs.map fun p => Node.leaf p.1 p.2)
  rw [flatLeaves_leaves] at h2
  exact h1.trans h2

theorem BuildHuffmanTree_isSome (freqs : List (Char × Nat)) (h : freqs ≠ []) :
    ∃ root, BuildHuffmanTree freqs = some root := by
  apply buildLoop_isSome
  have : 0 < (sortNodes (freqs.map fun p => Node.leaf p.1 p.2)).length := by
    rw [length_sortNodes, List.length_map]
    exact List.length_pos.mpr h
  exact List.length_pos.mp this

theorem buildLoop_consistent (ns : List Node) (root : Node)
    (hall : ∀ n ∈ ns, consistent n = true) (h : buildLoop ns = some root) :
    consistent root = true := by
  induction ns using buildLoop.induct generalizing root with
  | case1 => simp [buildLoop] at h
  | case2 n =>
    simp [buildLoop] at h
    subst h
    exact hall n (by simp)
  | case3 a b rest ih =>
    rw [buildLoop] at h
    apply ih root _ h
    intro n hn
    rw [mem_sortNodes] at hn
    rcases List.mem_append.mp hn with hn | hn
    · exact hall n (by simp [hn])
    · have hp : n = Node.parent (a.freq + b.freq) a b := by simpa using hn
      subst hp
      have ha := hall a (by simp)
      have hb := hall b (by simp)
      simp [consistent, ha, hb]

theorem freq_eq_sum_of_consistent (t : Node) (h : consistent t = true) :
    t.freq = ((leafPairs t).map Prod.snd).sum := by
  induction t with
  | leaf c f => simp [leafPairs, Node.freq]
  | parent f l r ihl ihr =>
    simp only [consistent, Bool.and_eq_true, beq_iff_eq] at h
    obtain ⟨⟨hf, hl⟩, hr⟩ := h
    show f = ((leafPairs (Node.parent f l r)).map Prod.snd).sum
    rw [hf, ihl hl, ihr hr]
    simp [leafPairs]

theorem numLeaves_eq_length (t : Node) : numLeaves t = (leafPairs t).length := by
  induction t with
  | leaf c f => rfl
  | parent f l r ihl ihr => simp [numLeaves, leafPairs, ihl, ihr]

theorem numInternal_succ (t : Node) : numInternal t + 1 = numLeaves t := by
  induction t with
  | leaf c f => rfl
  | parent f l r ihl ihr => simp [numInternal, numLeaves, ← ihl, ← ihr]; omega

theorem isParent_of_two_leaves {t : Node} (h : 2 ≤ (leafPairs t).length) :
    t.isParent = true := by
  cases t with
  | leaf c f => simp [leafPairs] at h
  | parent f l r => rfl

theorem BuildHuffmanCodes_eq (t : Node) (code : List Char) :
    BuildHuffmanCodes t code = (codePaths t).map fun p => (p.1, code ++ p.2) := by
  induction t generalizing code with
  | leaf c f => simp [BuildHuffmanCodes, codePaths]
  | parent f l r ihl ihr =>
    simp [BuildHuffmanCodes, codePaths, ihl, ihr, List.map_map, Function.comp_def,
      List.append_assoc]

theorem BuildHuffmanCodes_nil (t : Node) : BuildHuffmanCodes t [] = codePaths t := by
  simp [BuildHuffmanCodes_eq]

theorem codePaths_keys (t : Node) :
    (codePaths t).map Prod.fst = (leafPairs t).map Prod.fst := by
  induction t with
  | leaf c f => rfl
  | parent f l r ihl ihr =>
    simp [codePaths, leafPairs, ihl, ihr, List.map_map, Function.comp_def]

theorem codePaths_incomparable (t : Node) :
    ∀ p ∈ codePaths t, ∀ q ∈ codePaths t, p.1 ≠ q.1 → ¬ p.2 <+: q.2 := by
  induction t with
  | leaf c f =>
    intro p hp q hq hne
    simp [codePaths] at hp hq
    subst hp
    subst hq
    simp at hne
  | parent f l r ihl ihr =>
    intro p hp q hq hne hpre
    simp only [codePaths, List.mem_append, List.mem_map] at hp hq
    rcases hp with ⟨a, ha, rfl⟩ | ⟨a, ha, rfl⟩ <;>
      rcases hq with ⟨b, hb, rfl⟩ | ⟨b, hb, rfl⟩ <;>
      simp only [List.cons_prefix_cons] at hpre
    · exact ihl a ha b hb (by simpa using hne) hpre.2
    · exact absurd hpre.1 (by decide)
    · exact absurd hpre.1 (by decide)
    · exact ihr a ha b hb (by simpa using hne) hpre.2

theorem lookup_mem {l : List (Char × List Char)} {c : Char} {v : List Char}
    (h : l.lookup c = some v) : (c, v) ∈ l := by
  induction l with
  | nil => simp [List.lookup] at h
  | cons p t ih =>
    cases p with
    | mk k w =>
      by_cases hc : c = k
      · subst hc
        simp [List.lookup] at h
        simp [h]
      · have hck : (c == k) = false := beq_false_of_ne hc
        rw [List.lookup, hck] at h
        exact List.mem_cons_of_mem _ (ih h)

theorem lookup_isSome_of_mem {l : List (Char × List Char)} {c : Char}
    (h : c ∈ l.map Prod.fst) : ∃ v, l.lookup c = some v := by
  induction l with
  | nil => simp at h
  | cons p t ih =>
    cases p with
    | mk k w =>
      by_cases hc : c = k
      · subst hc
        exact ⟨w, by simp [List.lookup]⟩
      · have hmem : c ∈ t.map Prod.fst := by
          rw [List.map_cons] at h
          rcases List.mem_cons.mp h with h' | h'
          · exact absurd h' hc
          · exact h'
        obtain ⟨v, hv⟩ := ih hmem
        exact ⟨v, by rw [List.lookup, beq_false_of_ne hc]; exact hv⟩

theorem EncryptFile_total (codes : List (Char × List Char)) (content : List Char)
    (h : ∀ c ∈ content, c ∈ codes.map Prod.fst) :
    ∃ bits, EncryptFile codes content = .ok bits := by
  induction content with
  | nil => exact ⟨[], rfl⟩
  | cons c rest ih =>
    obtain ⟨v, hv⟩ := lookup_isSome_of_mem (h c (List.mem_cons_self c rest))
    obtain ⟨bits, hb⟩ := ih fun x hx => h x (List.mem_cons_of_mem _ hx)
    exact ⟨v ++ bits, by simp [EncryptFile, hv, hb, Except.map]⟩

theorem decryptLoop_codePath (root : Node) (t : Node) (c : Char) (s rest : List Char)
    (hmem : (c, s) ∈ codePaths t) (hpar : t.isParent = true) :
    decryptLoop root (s ++ rest) t =
      (decryptLoop root rest root).map fun p => (c :: p.1, p.2) := by
  induction t generalizing s with
  | leaf c₀ f₀ => simp [Node.isParent] at hpar
  | parent f l r ihl ihr =>
    simp only [codePaths, List.mem_append, List.mem_map] at hmem
    rcases hmem with ⟨a, ha, heq⟩ | ⟨a, ha, heq⟩
    · obtain ⟨rfl, rfl⟩ : c = a.1 ∧ s = '0' :: a.2 := by
        constructor <;> { have := congrArg Prod.fst heq; have := congrArg Prod.snd heq; simp_all }
      cases hl : l with
      | leaf c₀ f₀ =>
        rw [hl] at ha
        simp [codePaths] at ha
        subst ha
        simp [decryptLoop]
      | parent f₀ l₀ r₀ =>
        rw [hl] at ha ihl
        have hstep : decryptLoop root (('0' :: a.2) ++ rest)
              (Node.parent f (Node.parent f₀ l₀ r₀) r) =
            decryptLoop root (a.2 ++ rest) (Node.parent f₀ l₀ r₀) := by
          simp [decryptLoop]
        rw [hstep]
        exact ihl a.2 ha rfl
    · obtain ⟨rfl, rfl⟩ : c = a.1 ∧ s = '1' :: a.2 := by
        constructor <;> { have := congrArg Prod.fst heq; have := congrArg Prod.snd heq; simp_all }
      cases hr : r with
      | leaf c₀ f₀ =>
        rw [hr] at ha
        simp [codePaths] at ha
        subst ha
        simp [decryptLoop]
      | parent f₀ l₀ r₀ =>
        rw [hr] at ha ihr
        have hstep : decryptLoop root (('1' :: a.2) ++ rest)
              (Node.parent f l (Node.parent f₀ l₀ r₀)) =
            decryptLoop root (a.2 ++ rest) (Node.parent f₀ l₀ r₀) := by
          simp [decryptLoop]
        rw [hstep]
        exact ihr a.2 ha rfl

theorem decryptLoop_EncryptFile (root : Node) (hr : root.isParent = true)
    (content : List Char) (bits : List Char)
    (h : EncryptFile (BuildHuffmanCodes root []) content = .ok bits) :
    decryptLoop root bits root = some (content, root) := by
  induction content generalizing bits with
  | nil =>
    simp [EncryptFile] at h
    subst h
    rfl
  | cons c rest ih =>
    rw [EncryptFile] at h
    cases hl : (BuildHuffmanCodes root []).lookup c with
    | none => rw [hl] at h; exact absurd h (by simp)
    | some code =>
      rw [hl] at h
      cases he : EncryptFile (BuildHuffmanCodes root []) rest with
      | error e => rw [he] at h; exact absurd h (by simp [Except.map])
      | ok bits' =>
        rw [he] at h
        have hbits : bits = code ++ bits' := by
          simp [Except.map] at h
          exact h.symm
        subst hbits
        have hmem : (c, code) ∈ codePaths root := by
          rw [← BuildHuffmanCodes_nil]
          exact lookup_mem hl
        rw [decryptLoop_codePath root root c code bits' hmem hr, ih bits' he]
        rfl

theorem bumpFreq_keys (l : List (Char × Nat)) (c : Char) :
    (bumpFreq l c).map Prod.fst =
      if c ∈ l.map Prod.fst then l.map Prod.fst else l.map Prod.fst ++ [c] := by
  induction l with
  | nil => simp [bumpFreq]
  | cons p t ih =>
    cases p with
    | mk d n =>
      by_cases hc : c = d
      · subst hc
        simp [bumpFreq]
      · by_cases hm : c ∈ t.map Prod.fst <;>
          simp [bumpFreq, hc, ih, hm]

theorem keys_foldl_bumpFreq (content : List Char) (acc : List (Char × Nat)) (c : Char)
    (h : c ∈ acc.map Prod.fst ∨ c ∈ content) :
    c ∈ (content.foldl bumpFreq acc).map Prod.fst := by
  induction content generalizing acc with
  | nil =>
    rcases h with h | h
    · exact h
    · simp at h
  | cons x rest ih =>
    rw [List.foldl_cons]
    apply ih
    rcases h with hacc | hx
    · left
      rw [bumpFreq_keys]
      split <;> simp [hacc]
    · rcases List.mem_cons.mp hx with rfl | hx'
      · left
        rw [bumpFreq_keys]
        split <;> simp_all
      · right
        exact hx'

theorem mem_keys_countFrequencies {content : List Char} {c : Char} (h : c ∈ content) :
    c ∈ (countFrequencies content).map Prod.fst :=
  keys_foldl_bumpFreq content [] c (Or.inr h)

theorem nodup_keys_foldl_bumpFreq (content : List Char) (acc : List (Char × Nat))
    (h : (acc.map Prod.fst).Nodup) :
    ((content.foldl bumpFreq acc).map Prod.fst).Nodup := by
  induction content generalizing acc with
  | nil => exact h
  | cons x rest ih =>
    rw [List.foldl_cons]
    apply ih
    rw [bumpFreq_keys]
    split
    · exact h
    · next hmem => simp [List.nodup_append, h, hmem]

theorem nodup_keys_countFrequencies (content : List Char) :
    ((countFrequencies content).map Prod.fst).Nodup :=
  nodup_keys_foldl_bumpFreq content [] (by simp)

theorem decryptLoop_isSome (root : Node) (hr : root.isParent = true)
    (bits : List Char) (cur : Node) (hcur : cur.isParent = true) :
    ∃ out fin, decryptLoop root bits cur = some (out, fin) := by
  induction bits generalizing cur with
  | nil => exact ⟨[], cur, rfl⟩
  | cons b rest ih =>
    cases cur with
    | leaf c f => simp [Node.isParent] at hcur
    | parent f l r =>
      cases hnext : (if b == '0' then l else r) with
      | leaf c fr =>
        obtain ⟨out, fin, hh⟩ := ih root hr
        refine ⟨c :: out, fin, ?_⟩
        simp only [decryptLoop]
        rw [hnext, hh]
        rfl
      | parent f' a b' =>
        obtain ⟨out, fin, hh⟩ := ih (Node.parent f' a b') rfl
        refine ⟨out, fin, ?_⟩
        simp only [decryptLoop]
        rw [hnext]
        exact hh

theorem EncryptFile_error_mem (codes : List (Char × List Char)) (content : List Char)
    (e : Char) (h : EncryptFile codes content = .error e) :
    e ∈ content ∧ codes.lookup e = none := by
  induction content with
  | nil => simp [EncryptFile] at h
  | cons c rest ih =>
    rw [EncryptFile] at h
    cases hl : codes.lookup c with
    | none =>
      rw [hl] at h
      have : c = e := by simpa using h
      subst this
      exact ⟨by simp, hl⟩
    | some v =>
      rw [hl] at h
      cases he : EncryptFile codes rest with
      | error e' =>
        rw [he] at h
        have : e' = e := by simpa [Except.map] using h
        subst this
        obtain ⟨h1, h2⟩ := ih he
        exact ⟨by simp [h1], h2⟩
      | ok bits => rw [he] at h; simp [Except.map] at h

theorem EncryptFile_error_iff (codes : List (Char × List Char)) (content : List Char) :
    (∃ e, EncryptFile codes content = .error e) ↔ ∃ c ∈ content, codes.lookup c = none := by
  constructor
  · rintro ⟨e, he⟩
    obtain ⟨h1, h2⟩ := EncryptFile_error_mem codes content e he
    exact ⟨e, h1, h2⟩
  · rintro ⟨c, hc, hlc⟩
    induction content with
    | nil => simp at hc
    | cons x rest ih =>
      rcases List.mem_cons.mp hc with rfl | hc'
      · exact ⟨c, by simp [EncryptFile, hlc]⟩
      · cases hlx : codes.lookup x with
        | none => exact ⟨x, by simp [EncryptFile, hlx]⟩
        | some v =>
          obtain ⟨e, he⟩ := ih hc'
          exact ⟨e, by simp [EncryptFile, hlx, he, Except.map]⟩

theorem EncryptFile_ok (codes : List (Char × List Char)) (content : List Char)
    (h : ∀ c ∈ content, (codes.lookup c).isSome) :
    EncryptFile codes content = .ok (content.flatMap fun c => (codes.lookup c).getD []) := by
  induction content with
  | nil => rfl
  | cons c rest ih =>
    cases hl : codes.lookup c with
    | none =>
      have := h c (by simp)
      rw [hl] at this
      simp at this
    | some v =>
      rw [EncryptFile, hl, ih fun x hx => h x (by simp [hx])]
      simp [Except.map, hl]

/-- C1: Round-trip — for every character stream with at least two distinct
characters (hence non-empty), and for every order in which Go's map iteration
can present its frequency table, building the tree, encoding the stream through
the derived codebook, and decoding the resulting bit-string with `DecryptFile`'s
bit-walk reproduces the stream exactly. -/
theorem c1_round_trip (s : List Char) (freqs : List (Char × Nat))
    (hperm : freqs ~ countFrequencies s) (h2 : 2 ≤ freqs.length) :
    ∃ root bits,
      BuildHuffmanTree freqs = some root ∧
      EncryptFile (BuildHuffmanCodes root []) s = Except.ok bits ∧
      DecryptFile root bits = some s := by
  have hne : freqs ≠ [] := by
    intro h
    rw [h] at h2
    simp at h2
  obtain ⟨root, hroot⟩ := BuildHuffmanTree_isSome freqs hne
  have hlp : leafPairs root ~ freqs := BuildHuffmanTree_leafPairs hroot
  have hkeys : (codePaths root).map Prod.fst ~ freqs.map Prod.fst := by
    rw [codePaths_keys]
    exact hlp.map Prod.fst
  have hcov : ∀ c ∈ s, c ∈ (BuildHuffmanCodes root []).map Prod.fst := by
    intro c hc
    rw [BuildHuffmanCodes_nil]
    have h1 : c ∈ (countFrequencies s).map Prod.fst := mem_keys_countFrequencies hc
    have h2' : c ∈ freqs.map Prod.fst := (hperm.map Prod.fst).mem_iff.mpr h1
    exact hkeys.mem_iff.mpr h2'
  obtain ⟨bits, hbits⟩ := EncryptFile_total _ s hcov
  have hr : root.isParent = true := by
    apply isParent_of_two_leaves
    rw [hlp.length_eq]
    exact h2
  refine ⟨root, bits, hroot, hbits, ?_⟩
  unfold DecryptFile
  rw [decryptLoop_EncryptFile root hr s bits hbits]
  rfl

/-- Witness for C1: the stream "ab" with its frequency table. -/
theorem c1_round_trip_witness :
    ∃ root bits,
      BuildHuffmanTree [('a', 1), ('b', 1)] = some root ∧
      EncryptFile (BuildHuffmanCodes root []) ['a', 'b'] = Except.ok bits ∧
      DecryptFile root bits = some ['a', 'b'] :=
  c1_round_trip ['a', 'b'] [('a', 1), ('b', 1)] (by decide) (by decide)

/-- C2: Determinism fails on the code — `BuildHuffmanTree` consumes the
frequency map in Go's unspecified iteration order, and two orders of the very
same table (a permutation of each other) yield different trees and different
encoded outputs, so two runs over the same input need not agree. -/
theorem c2_pipeline_depends_on_map_order :
    ([(('a' : Char), 1), ('b', 1)] : List (Char × Nat)) ~ [('b', 1), ('a', 1)] ∧
    BuildHuffmanTree [('a', 1), ('b', 1)] =
      some (Node.parent 2 (Node.leaf 'a' 1) (Node.leaf 'b' 1)) ∧
    BuildHuffmanTree [('b', 1), ('a', 1)] =
      some (Node.parent 2 (Node.leaf 'b' 1) (Node.leaf 'a' 1)) ∧
    BuildHuffmanTree [('a', 1), ('b', 1)] ≠ BuildHuffmanTree [('b', 1), ('a', 1)] ∧
    EncryptFile (BuildHuffmanCodes (Node.parent 2 (Node.leaf 'a' 1) (Node.leaf 'b' 1)) [])
        ['a', 'b'] = Except.ok ['0', '1'] ∧
    EncryptFile (BuildHuffmanCodes (Node.parent 2 (Node.leaf 'b' 1) (Node.leaf 'a' 1)) [])
        ['a', 'b'] = Except.ok ['1', '0'] ∧
    (['0', '1'] : List Char) ≠ ['1', '0'] := by
  have h1 : BuildHuffmanTree [('a', 1), ('b', 1)] =
      some (Node.parent 2 (Node.leaf 'a' 1) (Node.leaf 'b' 1)) := by
    simp [BuildHuffmanTree, buildLoop, sortNodes, List.insertionSort, List.orderedInsert,
      nodeLE, Node.freq]
  have h2 : BuildHuffmanTree [('b', 1), ('a', 1)] =
      some (Node.parent 2 (Node.leaf 'b' 1) (Node.leaf 'a' 1)) := by
    simp [BuildHuffmanTree, buildLoop, sortNodes, List.insertionSort, List.orderedInsert,
      nodeLE, Node.freq]
  refine ⟨by decide, h1, h2, ?_, rfl, rfl, by decide⟩
  rw [h1, h2]
  decide

/-- C3: at each merge step the loop takes the first two nodes of the re-sorted
working collection, which carry the smallest and second-smallest weights; the
sort orders by ascending weight and is stable over the current collection order
(for every weight, the equal-weight nodes keep their relative positions —
character values play no role); and the loop continues on the collection with
the new parent (first selected node as left child) appended at the end and then
re-sorted. -/
theorem c3_merge_step (ns : List Node) (a b : Node) (rest : List Node)
    (h : sortNodes ns = a :: b :: rest) :
    (∀ n ∈ sortNodes ns, a.freq ≤ n.freq) ∧
    (∀ n ∈ b :: rest, b.freq ≤ n.freq) ∧
    (∀ w : Nat, (sortNodes ns).filter (fun n => n.freq == w) =
      ns.filter (fun n => n.freq == w)) ∧
    buildLoop (sortNodes ns) =
      buildLoop (sortNodes (rest ++ [Node.parent (a.freq + b.freq) a b])) := by
  have hs := sortNodes_sorted ns
  rw [h] at hs
  refine ⟨?_, ?_, fun w => filter_sortNodes w ns, ?_⟩
  · intro n hn
    rw [h] at hn
    rcases List.mem_cons.mp hn with rfl | hn'
    · exact le_refl _
    · exact List.rel_of_sorted_cons hs n hn'
  · intro n hn
    rcases List.mem_cons.mp hn with rfl | hn'
    · exact le_refl _
    · exact List.rel_of_sorted_cons (List.sorted_cons.mp hs).2 n hn'
  · rw [h, buildLoop]

/-- Witness for C3: the collection {b:2, a:1, c:1}, in which the two weight-1
nodes tie and keep their collection order a-before-c. -/
theorem c3_merge_step_witness :
    (∀ n ∈ sortNodes [Node.leaf 'b' 2, Node.leaf 'a' 1, Node.leaf 'c' 1],
        (Node.leaf 'a' 1).freq ≤ n.freq) ∧
    (∀ n ∈ [Node.leaf 'c' 1, Node.leaf 'b' 2], (Node.leaf 'c' 1).freq ≤ n.freq) ∧
    (∀ w : Nat, (sortNodes [Node.leaf 'b' 2, Node.leaf 'a' 1, Node.leaf 'c' 1]).filter
        (fun n => n.freq == w) =
      [Node.leaf 'b' 2, Node.leaf 'a' 1, Node.leaf 'c' 1].filter (fun n => n.freq == w)) ∧
    buildLoop (sortNodes [Node.leaf 'b' 2, Node.leaf 'a' 1, Node.leaf 'c' 1]) =
      buildLoop (sortNodes ([Node.leaf 'b' 2] ++
        [Node.parent ((Node.leaf 'a' 1).freq + (Node.leaf 'c' 1).freq)
          (Node.leaf 'a' 1) (Node.leaf 'c' 1)])) :=
  c3_merge_step [Node.leaf 'b' 2, Node.leaf 'a' 1, Node.leaf 'c' 1]
    (Node.leaf 'a' 1) (Node.leaf 'c' 1) [Node.leaf 'b' 2] (by decide)

/-- C4 counterexample: on the empty frequency table `BuildHuffmanTree` does not
signal any `ConstructionError` — its Go return type `*Node` has no error
channel at all — it crashes on the index-out-of-range access `nodes[0]`,
modelled here by `none`. -/
theorem c4_empty_table_crashes : BuildHuffmanTree [] = none := by
  simp [BuildHuffmanTree, buildLoop, sortNodes, List.insertionSort]

/-- C4 amended: for every non-empty frequency table `BuildHuffmanTree` returns
the root of a code tree; on the empty table it crashes (see the
counterexample) rather than signalling a `ConstructionError`. -/
theorem c4_nonempty_returns_root (freqs : List (Char × Nat)) (h : freqs ≠ []) :
    ∃ root, BuildHuffmanTree freqs = some root :=
  BuildHuffmanTree_isSome freqs h

/-- Witness for C4's amended theorem at a one-entry table. -/
theorem c4_nonempty_returns_root_witness :
    ∃ root, BuildHuffmanTree [('a', 1)] = some root :=
  c4_nonempty_returns_root [('a', 1)] (by decide)

/-- C5 counterexample: for the tree of the table {c:2, a:1, b:1}, the stream
"ab" encodes to "1011"; decoding the one-bit truncation "101" ends with the
cursor at the internal node reached by '1' (not at the root), yet the decoder
reports no error and silently returns the shortened output "a". -/
theorem c5_truncation_silently_ignored :
    EncryptFile (BuildHuffmanCodes
        (Node.parent 4 (Node.leaf 'c' 2) (Node.parent 2 (Node.leaf 'a' 1) (Node.leaf 'b' 1)))
        []) ['a', 'b'] = Except.ok ['1', '0', '1', '1'] ∧
    decryptLoop
        (Node.parent 4 (Node.leaf 'c' 2) (Node.parent 2 (Node.leaf 'a' 1) (Node.leaf 'b' 1)))
        ['1', '0', '1']
        (Node.parent 4 (Node.leaf 'c' 2) (Node.parent 2 (Node.leaf 'a' 1) (Node.leaf 'b' 1))) =
      some (['a'], Node.parent 2 (Node.leaf 'a' 1) (Node.leaf 'b' 1)) ∧
    Node.parent 2 (Node.leaf 'a' 1) (Node.leaf 'b' 1) ≠
      Node.parent 4 (Node.leaf 'c' 2) (Node.parent 2 (Node.leaf 'a' 1) (Node.leaf 'b' 1)) ∧
    DecryptFile
        (Node.parent 4 (Node.leaf 'c' 2) (Node.parent 2 (Node.leaf 'a' 1) (Node.leaf 'b' 1)))
        ['1', '0', '1'] = some ['a'] :=
  ⟨rfl, by decide, by decide, by decide⟩

/-- C5 amended: the decoder performs no truncation check whatsoever — whenever
the tree's root is an internal node, the bit-walk over any bit-string succeeds
with some (possibly shortened) output and some final cursor, also when that
cursor is not the root; no `TruncatedStreamError` condition exists in the
code. -/
theorem c5_decoder_always_succeeds (f : Nat) (l r : Node) (bits : List Char) :
    ∃ out fin,
      decryptLoop (Node.parent f l r) bits (Node.parent f l r) = some (out, fin) :=
  decryptLoop_isSome (Node.parent f l r) rfl bits (Node.parent f l r) rfl

/-- C6: encoding fails with the error naming a character exactly when some
input character has no codebook entry (and the named character is such a
character; the Go function returns before writing anything to the sink), and
when every input character has an entry it succeeds with the concatenation of
the per-character codes in stream order. -/
theorem c6_unknown_symbol (codes : List (Char × List Char)) (content : List Char) :
    ((∃ e, EncryptFile codes content = .error e) ↔
      ∃ c ∈ content, codes.lookup c = none) ∧
    (∀ e, EncryptFile codes content = .error e →
      e ∈ content ∧ codes.lookup e = none) ∧
    ((∀ c ∈ content, (codes.lookup c).isSome) →
      EncryptFile codes content = .ok (content.flatMap fun c => (codes.lookup c).getD [])) :=
  ⟨EncryptFile_error_iff codes content,
   fun e => EncryptFile_error_mem codes content e,
   EncryptFile_ok codes content⟩

/-- Witness for C6 at a concrete codebook and stream. -/
theorem c6_unknown_symbol_witness :
    ((∃ e, EncryptFile [(('a' : Char), (['0'] : List Char))] ['a'] = .error e) ↔
      ∃ c ∈ ['a'], ([(('a' : Char), (['0'] : List Char))].lookup c) = none) ∧
    (∀ e, EncryptFile [(('a' : Char), (['0'] : List Char))] ['a'] = .error e →
      e ∈ ['a'] ∧ ([(('a' : Char), (['0'] : List Char))].lookup e) = none) ∧
    ((∀ c ∈ ['a'], (([(('a' : Char), (['0'] : List Char))]).lookup c).isSome) →
      EncryptFile [(('a' : Char), (['0'] : List Char))] ['a'] =
        .ok (['a'].flatMap fun c => (([(('a' : Char), (['0'] : List Char))]).lookup c).getD [])) :=
  c6_unknown_symbol [('a', ['0'])] ['a']

/-- C7: for every tree built from a non-empty frequency table with distinct
characters (as a Go map guarantees), the derived codebook assigns each distinct
character exactly one code (its keys are exactly the table's characters, each
once), and no character's code is a prefix — in particular not a proper
prefix — of a different character's code. -/
theorem c7_prefix_free_codes (freqs : List (Char × Nat)) (hne : freqs ≠ [])
    (hnd : (freqs.map Prod.fst).Nodup) :
    ∃ root, BuildHuffmanTree freqs = some root ∧
      (BuildHuffmanCodes root []).map Prod.fst ~ freqs.map Prod.fst ∧
      ((BuildHuffmanCodes root []).map Prod.fst).Nodup ∧
      ∀ p ∈ BuildHuffmanCodes root [], ∀ q ∈ BuildHuffmanCodes root [],
        p.1 ≠ q.1 → ¬ p.2 <+: q.2 := by
  obtain ⟨root, hroot⟩ := BuildHuffmanTree_isSome freqs hne
  have hkeys : (BuildHuffmanCodes root []).map Prod.fst ~ freqs.map Prod.fst := by
    rw [BuildHuffmanCodes_nil, codePaths_keys]
    exact (BuildHuffmanTree_leafPairs hroot).map Prod.fst
  refine ⟨root, hroot, hkeys, hkeys.nodup_iff.mpr hnd, ?_⟩
  rw [BuildHuffmanCodes_nil]
  exact codePaths_incomparable root

/-- Witness for C7 at the table {a:1, b:1}. -/
theorem c7_prefix_free_codes_witness :
    ∃ root, BuildHuffmanTree [('a', 1), ('b', 1)] = some root ∧
      (BuildHuffmanCodes root []).map Prod.fst ~ [('a', 1), ('b', 1)].map Prod.fst ∧
      ((BuildHuffmanCodes root []).map Prod.fst).Nodup ∧
      ∀ p ∈ BuildHuffmanCodes root [], ∀ q ∈ BuildHuffmanCodes root [],
        p.1 ≠ q.1 → ¬ p.2 <+: q.2 :=
  c7_prefix_free_codes [('a', 1), ('b', 1)] (by decide) (by decide)

/-- C8: every tree returned by `BuildHuffmanTree` satisfies the weight
invariant — each internal node's weight is the sum of its two children's
weights — and the root's weight is the sum of all frequencies in the input
table. -/
theorem c8_weight_invariant (freqs : List (Char × Nat)) (hne : freqs ≠ []) :
    ∃ root, BuildHuffmanTree freqs = some root ∧
      consistent root = true ∧
      root.freq = (freqs.map Prod.snd).sum := by
  obtain ⟨root, hroot⟩ := BuildHuffmanTree_isSome freqs hne
  have hcons : consistent root = true := by
    apply buildLoop_consistent _ root _ hroot
    intro n hn
    rw [mem_sortNodes] at hn
    obtain ⟨p, hp, rfl⟩ := List.mem_map.mp hn
    rfl
  refine ⟨root, hroot, hcons, ?_⟩
  rw [freq_eq_sum_of_consistent root hcons]
  exact ((BuildHuffmanTree_leafPairs hroot).map Prod.snd).sum_eq

/-- Witness for C8 at the table {a:1, b:2}. -/
theorem c8_weight_invariant_witness :
    ∃ root, BuildHuffmanTree [('a', 1), ('b', 2)] = some root ∧
      consistent root = true ∧
      root.freq = ([(('a' : Char), 1), ('b', 2)].map Prod.snd).sum :=
  c8_weight_invariant [('a', 1), ('b', 2)] (by decide)

/-- C9: a tree built from a table with n distinct characters (n ≥ 1) has
exactly n leaves — one per table entry, the leaf characters being exactly the
table's characters — and exactly n − 1 internal nodes. -/
theorem c9_leaf_count (freqs : List (Char × Nat)) (hne : freqs ≠ []) :
    ∃ root, BuildHuffmanTree freqs = some root ∧
      numLeaves root = freqs.length ∧
      numInternal root = freqs.length - 1 ∧
      (leafPairs root).map Prod.fst ~ freqs.map Prod.fst := by
  obtain ⟨root, hroot⟩ := BuildHuffmanTree_isSome freqs hne
  have hlp := BuildHuffmanTree_leafPairs hroot
  have hlen : numLeaves root = freqs.length := by
    rw [numLeaves_eq_length]
    exact hlp.length_eq
  refine ⟨root, hroot, hlen, ?_, hlp.map Prod.fst⟩
  have := numInternal_succ root
  omega

/-- Witness for C9 at the table {a:1, b:1}. -/
theorem c9_leaf_count_witness :
    ∃ root, BuildHuffmanTree [('a', 1), ('b', 1)] = some root ∧
      numLeaves root = [(('a' : Char), 1), ('b', 1)].length ∧
      numInternal root = [(('a' : Char), 1), ('b', 1)].length - 1 ∧
      (leafPairs root).map Prod.fst ~ [(('a' : Char), 1), ('b', 1)].map Prod.fst :=
  c9_leaf_count [('a', 1), ('b', 1)] (by decide)

/-- C10: the decoder's bit-walk is not total — when the root is a leaf (one
distinct character), any non-empty bit-string makes the first iteration move to
a nil child and dereference it (the `none` panic), and the walk treats every
bit other than '0' exactly like '1' (a move to the right child), accepting
characters outside the 0/1 alphabet without any error. -/
theorem c10_decoder_not_total :
    (∀ (c : Char) (f : Nat) (bits : List Char), bits ≠ [] →
        DecryptFile (Node.leaf c f) bits = none) ∧
    (∀ (root cur : Node) (b : Char) (bits : List Char), b ≠ '0' →
        decryptLoop root (b :: bits) cur = decryptLoop root ('1' :: bits) cur) := by
  constructor
  · intro c f bits hne
    cases bits with
    | nil => exact absurd rfl hne
    | cons b rest => rfl
  · intro root cur b bits hb
    cases cur with
    | leaf c f => rfl
    | parent f l r =>
      have hb' : (b == '0') = false := beq_false_of_ne hb
      simp [decryptLoop, hb']

/-- Witness for C10: a one-bit input on a leaf root, and the out-of-alphabet
bit 'x' behaving as '1'. -/
theorem c10_decoder_not_total_witness :
    DecryptFile (Node.leaf 'a' 4) ['0'] = none ∧
    decryptLoop (Node.leaf 'q' 1) ['x']
        (Node.parent 3 (Node.leaf 'y' 1) (Node.leaf 'z' 2)) =
      decryptLoop (Node.leaf 'q' 1) ['1']
        (Node.parent 3 (Node.leaf 'y' 1) (Node.leaf 'z' 2)) :=
  ⟨c10_decoder_not_total.1 'a' 4 ['0'] (by decide),
   c10_decoder_not_total.2 (Node.leaf 'q' 1)
     (Node.parent 3 (Node.leaf 'y' 1) (Node.leaf 'z' 2)) 'x' [] (by decide)⟩

end HuffmanCoding
